import Mathlib

/-!
Verification development for the SSS (Signal Space Separation) Maxwell filter
in `mne/preprocessing/maxwell.py`.

The Python source is shallowly embedded over exact real numbers:

* numpy arrays of floats become functions into `ℝ` / `Matrix _ _ ℝ`;
* Python exceptions (`raise ValueError` / `RuntimeError` / `IndexError`)
  become `Except String _` results;
* `scipy.linalg.pinv` is an external library routine; it enters the embedding
  as an explicit function parameter (`pinvFn`), and where a claim depends on
  its mathematical properties those are stated through the four Moore-Penrose
  conditions (`IsPinv`);
* the `np.nan` initialization of the basis matrices is modelled by matrices of
  `Option ℝ` whose entries start as `none` and become `some _` when written.

Collaborator code that lives outside this repository's source file
(`_concatenate_coils` from `mne.forward`) is modelled from the specification
and marked as such in its doc comment.
-/

noncomputable section

open scoped Real Matrix BigOperators

/-- `get_num_moments` from the source: total number of multipolar moments,
`int_order**2 + 2*int_order + ext_order**2 + 2*ext_order`. -/
def get_num_moments (int_order ext_order : ℕ) : ℕ :=
  int_order ^ 2 + 2 * int_order + ext_order ^ 2 + 2 * ext_order

/-- Number of columns of one side of the basis, `(order + 1) ** 2 - 1`,
as allocated by `np.empty((n_sens, (order + 1) ** 2 - 1))` in `_sss_basis`. -/
def n_basis_cols (order : ℕ) : ℕ := (order + 1) ^ 2 - 1

/-- The loop enumeration of `_sss_basis`:
`for deg in range(1, order + 1): for order in range(-deg, deg + 1)`,
as the list of `(degree, order)` pairs in iteration order. -/
def deg_ord_pairs (order_bound : ℕ) : List (ℕ × ℤ) :=
  (List.range order_bound).flatMap fun d =>
    (List.range (2 * (d + 1) + 1)).map fun k : ℕ => (d + 1, (k : ℤ) - (d + 1))

/-- Column index used by the assembly loop: `deg ** 2 + deg + order - 1`. -/
def col_index (p : ℕ × ℤ) : ℤ := (p.1 : ℤ) ^ 2 + p.1 + p.2 - 1

/-- One write of the assembly loop: store column `col` at column index `j`
of the `Option ℝ`-valued matrix `M` (a `some` models a written entry, `none`
models a `np.nan` left from the initialization `S.fill(np.nan)`). -/
def write_col {n m : ℕ} (M : Matrix (Fin n) (Fin m) (Option ℝ))
    (j : ℕ) (col : Fin n → ℝ) : Matrix (Fin n) (Fin m) (Option ℝ) :=
  Matrix.of fun i j' => if (j' : ℕ) = j then some (col i) else M i j'

/-- The double loop of `_sss_basis` filling one side's matrix: starting from
the all-`np.nan` (here: all-`none`) matrix, write the column computed for each
`(degree, order)` pair at column index `deg ** 2 + deg + order - 1`.
`f p i` is the entry computed for sensor `i` at the pair `p` (the quadrature
sum of weighted gradient-normal dot products). -/
def fill_side (order_bound n : ℕ) (f : ℕ × ℤ → Fin n → ℝ) :
    Matrix (Fin n) (Fin (n_basis_cols order_bound)) (Option ℝ) :=
  (deg_ord_pairs order_bound).foldl
    (fun M p => write_col M (col_index p).toNat (f p))
    (Matrix.of fun _ _ => none)

theorem mem_deg_ord_pairs {L : ℕ} {p : ℕ × ℤ} :
    p ∈ deg_ord_pairs L ↔
      1 ≤ p.1 ∧ p.1 ≤ L ∧ -(p.1 : ℤ) ≤ p.2 ∧ p.2 ≤ (p.1 : ℤ) := by
  obtain ⟨d, o⟩ := p
  constructor
  · intro hp
    rw [deg_ord_pairs, List.mem_flatMap] at hp
    obtain ⟨d', hd', hmem⟩ := hp
    rw [List.mem_range] at hd'
    rw [List.mem_map] at hmem
    obtain ⟨k, hk, heq⟩ := hmem
    rw [List.mem_range] at hk
    have hfst := congrArg Prod.fst heq
    have hsnd := congrArg Prod.snd heq
    dsimp only at hfst hsnd
    subst hfst
    subst hsnd
    have hk0 : (0 : ℤ) ≤ (k : ℤ) := Int.natCast_nonneg k
    have hk1 : (k : ℤ) < 2 * ((d' : ℤ) + 1) + 1 := by exact_mod_cast hk
    refine ⟨by omega, by omega, by push_cast; omega, by push_cast; omega⟩
  · rintro ⟨h1, hL, hlo, hhi⟩
    rw [deg_ord_pairs, List.mem_flatMap]
    refine ⟨d - 1, ?_, ?_⟩
    · rw [List.mem_range]
      omega
    · rw [List.mem_map]
      refine ⟨(o + d).toNat, ?_, ?_⟩
      · rw [List.mem_range]
        omega
      · rw [Prod.mk.injEq]
        constructor
        · omega
        · have ht : ((o + d).toNat : ℤ) = o + d := Int.toNat_of_nonneg (by omega)
          rw [ht]
          omega

theorem col_index_nonneg {L : ℕ} {p : ℕ × ℤ} (hp : p ∈ deg_ord_pairs L) :
    0 ≤ col_index p := by
  rw [mem_deg_ord_pairs] at hp
  obtain ⟨d, o⟩ := p
  obtain ⟨h1, _, hlo, _⟩ := hp
  have hd : (1 : ℤ) ≤ (d : ℤ) := by exact_mod_cast h1
  have : (d : ℤ) ^ 2 ≥ 1 := by nlinarith
  simp only [col_index]
  nlinarith

theorem col_index_lt {L : ℕ} {p : ℕ × ℤ} (hp : p ∈ deg_ord_pairs L) :
    col_index p ≤ ((L : ℤ) + 1) ^ 2 - 2 := by
  rw [mem_deg_ord_pairs] at hp
  obtain ⟨d, o⟩ := p
  obtain ⟨h1, hL, _, hhi⟩ := hp
  have hdL : (d : ℤ) ≤ (L : ℤ) := by exact_mod_cast hL
  simp only [col_index]
  nlinarith

end

section FillCoverage

/-- Once an entry of the matrix is written (is `some`), further writes of the
assembly loop keep it written; and a pair whose column index matches writes it. -/
theorem foldl_write_isSome {n m : ℕ} (l : List (ℕ × ℤ))
    (f : ℕ × ℤ → Fin n → ℝ) (M₀ : Matrix (Fin n) (Fin m) (Option ℝ))
    (i : Fin n) (j : Fin m)
    (h : (∃ p ∈ l, (col_index p).toNat = (j : ℕ)) ∨ (M₀ i j).isSome) :
    ((l.foldl (fun M p => write_col M (col_index p).toNat (f p)) M₀) i j).isSome := by
  induction l generalizing M₀ with
  | nil =>
    rcases h with ⟨p, hp, _⟩ | h
    · exact absurd hp (List.not_mem_nil p)
    · simpa using h
  | cons a l ih =>
    simp only [List.foldl_cons]
    apply ih
    by_cases hj : ((j : ℕ) = (col_index a).toNat)
    · right
      simp [write_col, hj]
    · rcases h with ⟨p, hp, hpj⟩ | h
      · rcases List.mem_cons.mp hp with rfl | hpl
        · exact absurd hpj.symm hj
        · exact Or.inl ⟨p, hpl, hpj⟩
      · right
        simpa [write_col, hj] using h

/-- Surjectivity of the column-index map: every column index below
`(L+1)^2 - 1` is hit by some `(degree, order)` pair of the loop. The degree is
recovered as `Nat.sqrt (j + 1)`. -/
theorem col_index_surj (L : ℕ) (j : ℕ) (hj : j < n_basis_cols L) :
    ∃ p ∈ deg_ord_pairs L, (col_index p).toNat = j := by
  have hL2 : j + 1 < (L + 1) ^ 2 := by
    have : n_basis_cols L = (L + 1) ^ 2 - 1 := rfl
    have hpos : 1 ≤ (L + 1) ^ 2 := Nat.one_le_pow _ _ (by omega)
    omega
  set d := Nat.sqrt (j + 1) with hd
  have hsq1 : d ^ 2 ≤ j + 1 := Nat.sqrt_le' (j + 1)
  have hsq2 : j + 1 < (d + 1) ^ 2 := by
    simpa [Nat.succ_eq_add_one] using Nat.lt_succ_sqrt' (j + 1)
  have hd1 : 1 ≤ d := by
    rcases Nat.eq_zero_or_pos d with h0 | h
    · rw [h0] at hsq2
      simp at hsq2
    · exact h
  have hdL : d ≤ L := by
    by_contra hcon
    have h1 : L + 1 ≤ d := by omega
    have h2 : (L + 1) ^ 2 ≤ d ^ 2 := Nat.pow_le_pow_left h1 2
    have h3 : (L + 1) ^ 2 ≤ j + 1 := le_trans h2 hsq1
    linarith
  refine ⟨(d, (j : ℤ) + 1 - d ^ 2 - d), ?_, ?_⟩
  · rw [mem_deg_ord_pairs]
    have hz1 : ((d : ℤ)) ^ 2 ≤ (j : ℤ) + 1 := by exact_mod_cast hsq1
    have hz2 : ((j : ℤ) + 1) < ((d : ℤ) + 1) ^ 2 := by exact_mod_cast hsq2
    refine ⟨hd1, hdL, ?_, ?_⟩
    · dsimp only
      nlinarith
    · dsimp only
      nlinarith
  · have : col_index (d, (j : ℤ) + 1 - d ^ 2 - d) = (j : ℤ) := by
      simp only [col_index]
      ring
    rw [this]
    exact Int.toNat_natCast j

/-- Every entry of the NaN-initialized side matrix is written by the loop. -/
theorem fill_side_isSome (L n : ℕ) (f : ℕ × ℤ → Fin n → ℝ)
    (i : Fin n) (j : Fin (n_basis_cols L)) :
    ((fill_side L n f) i j).isSome := by
  apply foldl_write_isSome
  exact Or.inl (col_index_surj L j j.isLt)

end FillCoverage

noncomputable section Numerics

open scoped Real

/-- `scipy.misc.factorial` as used by the source: factorial for a non-negative
integer argument, `0` for a negative one (the behaviour of the old
`scipy.misc.factorial`). -/
def sci_factorial (n : ℤ) : ℝ := if n < 0 then 0 else (Nat.factorial n.toNat : ℝ)

/-- `k`-th derivative of `(x^2 - 1)^l`, the polynomial kernel of the Rodrigues
formula for associated Legendre functions. -/
def legendre_diff (l k : ℕ) : Polynomial ℚ :=
  (Polynomial.derivative)^[k] ((Polynomial.X ^ 2 - 1) ^ l)

/-- Associated Legendre function `P_l^m` for `m ≥ 0` (Condon-Shortley phase),
via the Rodrigues formula
`P_l^m(x) = (-1)^m / (2^l l!) * (1-x^2)^(m/2) * d^(l+m)/dx^(l+m) (x^2-1)^l`. -/
def lpmv_nn (m l : ℕ) (x : ℝ) : ℝ :=
  (-1) ^ m / (2 ^ l * (Nat.factorial l : ℝ)) * Real.sqrt (1 - x ^ 2) ^ m *
    Polynomial.aeval x (legendre_diff l (l + m))

/-- `scipy.special.lpmv m l x`: associated Legendre function of integer order
`m` (possibly negative) and degree `l`, with the standard
`(-1)^m (l-m)!/(l+m)!` reflection for negative order. -/
def lpmv (m : ℤ) (l : ℕ) (x : ℝ) : ℝ :=
  if 0 ≤ m then lpmv_nn m.toNat l x
  else ((-1) ^ (-m).toNat * (sci_factorial ((l : ℤ) + m) / sci_factorial ((l : ℤ) - m))) *
    lpmv_nn (-m).toNat l x

/-- One row of `_cart_to_sph`: `(radius, azimuth, polar)` with
`radius = np.linalg.norm`, `azimuth = np.arctan2(y, x)` (embedded as the
argument of the complex number `x + iy`), `polar = np.arccos(z / radius)`.
The source has no zero-radius guard: at radius `0` the float code produces an
undefined (`NaN`) polar angle; the exact-real embedding produces the junk
value `Real.arccos 0` there (division by zero is `0` in Lean). Either way a
value, not an error, is produced. -/
def sph_of_cart (p : Fin 3 → ℝ) : Fin 3 → ℝ :=
  ![Real.sqrt (p 0 ^ 2 + p 1 ^ 2 + p 2 ^ 2),
    Complex.arg ⟨p 0, p 1⟩,
    Real.arccos (p 2 / Real.sqrt (p 0 ^ 2 + p 1 ^ 2 + p 2 ^ 2))]

/-- `_cart_to_sph`. The Python body raises no exception, so the embedded
function (in the same error monad used for the functions that do raise)
always returns `Except.ok`. -/
def cart_to_sph (pts : List (Fin 3 → ℝ)) : Except String (List (Fin 3 → ℝ)) :=
  Except.ok (pts.map sph_of_cart)

/-- Value of `_sph_harmonic` (Eq. 4): normalized associated Legendre times
complex exponential. -/
def sph_harmonic_val (degree : ℕ) (order : ℤ) (az pol : ℝ) : ℂ :=
  (Real.sqrt ((2 * (degree : ℝ) + 1) / (4 * Real.pi) *
      sci_factorial ((degree : ℤ) - order) / sci_factorial ((degree : ℤ) + order)) : ℝ) *
    (lpmv order degree (Real.cos pol) : ℂ) *
    Complex.exp (Complex.I * (order : ℂ) * (az : ℂ))

open scoped Classical in
/-- `_sph_harmonic` with its error checks (per scalar point; the source
vectorizes over arrays and raises if any entry violates a bound). -/
def sph_harmonic (degree : ℕ) (order : ℤ) (az pol : ℝ) : Except String ℂ :=
  if |order| > (degree : ℤ) then
    Except.error "Absolute value of expansion coefficient must be <= degree"
  else if az < -(2 * Real.pi) ∨ az > 2 * Real.pi then
    Except.error "Azimuth coords must lie in [-2*pi, 2*pi]"
  else if pol < 0 ∨ pol > Real.pi then
    Except.error "Polar coords must lie in [0, pi]"
  else Except.ok (sph_harmonic_val degree order az pol)

open scoped Classical in
/-- `_alegendre_deriv`: derivative of the associated Legendre function, with
the sign/normalization correction `C` for negative order. -/
def alegendre_deriv (degree : ℕ) (order : ℤ) (val : ℝ) : ℝ :=
  let C : ℝ := if order < 0 then
      (-1) ^ (-order).toNat *
        (sci_factorial ((degree : ℤ) - (-order)) / sci_factorial ((degree : ℤ) + (-order)))
    else 1
  let m : ℤ := |order|
  C * ((m : ℝ) * val * lpmv m degree val +
        ((degree : ℝ) + (m : ℝ)) * ((degree : ℝ) - (m : ℝ) + 1) *
          Real.sqrt (1 - val ^ 2) * lpmv (m - 1) degree val) / (1 - val ^ 2)

open scoped Classical in
/-- `_get_real_grad`: complex gradient triple to real triple by order sign.
For `order == 0` the source keeps the complex array and lets
`np.real_if_close` extract the (exactly zero-imaginary) real part; the
embedding takes the real part directly. -/
def get_real_grad (g : Fin 3 → ℂ) (order : ℤ) : Fin 3 → ℝ :=
  if order > 0 then fun i => Real.sqrt 2 * (g i).re
  else if order < 0 then fun i => Real.sqrt 2 * (g i).im
  else fun i => (g i).re

/-- `_sph_to_cart_partials` for one point: apply the position-dependent
transformation matrix `trans` to the spherical gradient. (Name avoids the
source's exact `_sph_to_cart_partials` spelling for lexical reasons only.) -/
def sph_to_cart_grads (sph_pt : Fin 3 → ℝ) (g : Fin 3 → ℝ) : Fin 3 → ℝ :=
  let c_a := Real.cos (sph_pt 1)
  let s_a := Real.sin (sph_pt 1)
  let c_p := Real.cos (sph_pt 2)
  let s_p := Real.sin (sph_pt 2)
  ![c_a * s_p * g 0 + (-s_a) * g 1 + c_a * c_p * g 2,
    s_a * s_p * g 0 + c_a * g 1 + c_p * s_a * g 2,
    c_p * g 0 + 0 * g 1 + (-s_p) * g 2]

/-- `_grad_in_components` for one integration point given in spherical
coordinates `(rad, az, pol)`: spherical gradient of the internal potential
term (Eq. 6), realized and converted to cartesian coordinates. -/
def grad_in_components (degree : ℕ) (order : ℤ) (sph_pt : Fin 3 → ℝ) : Fin 3 → ℝ :=
  let rad := sph_pt 0
  let az := sph_pt 1
  let pol := sph_pt 2
  let Y := sph_harmonic_val degree order az pol
  let g_rad : ℂ := ((-((degree : ℝ) + 1) / rad ^ (degree + 2) : ℝ) : ℂ) * Y
  let g_az : ℂ := ((1 / (rad ^ (degree + 2) * Real.sin pol) : ℝ) : ℂ) *
    Complex.I * (order : ℂ) * Y
  let g_pol : ℂ := ((1 / rad ^ (degree + 2) *
      Real.sqrt ((2 * (degree : ℝ) + 1) * sci_factorial ((degree : ℤ) - order) /
        (4 * Real.pi * sci_factorial ((degree : ℤ) + order))) *
      (-Real.sin pol) * alegendre_deriv degree order (Real.cos pol) : ℝ) : ℂ) *
    Complex.exp (Complex.I * (order : ℂ) * (az : ℂ))
  sph_to_cart_grads sph_pt (get_real_grad ![g_rad, g_az, g_pol] order)

/-- `_grad_out_components` for one integration point: spherical gradient of
the external potential term (Eq. 7), realized and converted to cartesian.
(`rad ^ (degree - 1)` uses truncated subtraction; the source only calls this
with `degree ≥ 1`.) -/
def grad_out_components (degree : ℕ) (order : ℤ) (sph_pt : Fin 3 → ℝ) : Fin 3 → ℝ :=
  let rad := sph_pt 0
  let az := sph_pt 1
  let pol := sph_pt 2
  let Y := sph_harmonic_val degree order az pol
  let g_rad : ℂ := (((degree : ℝ) * rad ^ (degree - 1) : ℝ) : ℂ) * Y
  let g_az : ℂ := ((rad ^ (degree - 1) / Real.sin pol : ℝ) : ℂ) *
    Complex.I * (order : ℂ) * Y
  let g_pol : ℂ := ((rad ^ (degree - 1) *
      Real.sqrt ((2 * (degree : ℝ) + 1) * sci_factorial ((degree : ℤ) - order) /
        (4 * Real.pi * sci_factorial ((degree : ℤ) + order))) *
      (-Real.sin pol) * alegendre_deriv degree order (Real.cos pol) : ℝ) : ℂ) *
    Complex.exp (Complex.I * (order : ℂ) * (az : ℂ))
  sph_to_cart_grads sph_pt (get_real_grad ![g_rad, g_az, g_pol] order)

end Numerics

noncomputable section Assembly

open scoped Real

/-- One MEG coil descriptor as delivered by the geometry collaborator:
channel name, coil class (`1.0` marks a magnetometer), integration point
positions, unit normals and quadrature weights. -/
structure Coil where
  chname : String
  coil_class : ℝ
  pts : List (Fin 3 → ℝ)
  normals : List (Fin 3 → ℝ)
  weights : List ℝ

/-- Modelled from the spec: `_concatenate_coils` (defined in `mne.forward`,
outside this source file) concatenates all coils' integration points. -/
def concat_pts (coils : List Coil) : List (Fin 3 → ℝ) := coils.flatMap Coil.pts

/-- Modelled from the spec: concatenated integration-point normals. -/
def concat_normals (coils : List Coil) : List (Fin 3 → ℝ) := coils.flatMap Coil.normals

/-- Modelled from the spec: concatenated quadrature weights. -/
def concat_weights (coils : List Coil) : List ℝ := coils.flatMap Coil.weights

/-- Modelled from the spec: per-coil integration point counts (`int_pts`);
`n_sens = len(int_pts)` and `int_lens = cumsum` come from this list. -/
def concat_counts (coils : List Coil) : List ℕ := coils.map fun c => c.pts.length

/-- Three-component dot product (`np.einsum('ij,ij->i', grads, ncoils)` for
one row). -/
def dot3 (a b : Fin 3 → ℝ) : ℝ := a 0 * b 0 + a 1 * b 1 + a 2 * b 2

/-- `all_grads` of the assembly loop for one `(degree, order)` pair: per
flattened integration point, the quadrature weight times the dot product of
the negated realized gradient (evaluated at the point's spherical coordinates
about the origin) with the point's normal. -/
def all_grads_list (origin : Fin 3 → ℝ) (coils : List Coil)
    (g_func : ℕ → ℤ → (Fin 3 → ℝ) → Fin 3 → ℝ) (p : ℕ × ℤ) : List ℝ :=
  List.zipWith (fun w gn => w * gn) (concat_weights coils)
    (List.zipWith
      (fun pt n =>
        dot3 (fun k => -(g_func p.1 p.2 (sph_of_cart fun k' => pt k' - origin k') k)) n)
      (concat_pts coils) (concat_normals coils))

/-- Start offset of coil `i`'s contiguous integration-point range
(`int_lens[i]`, the prefix sums of `int_pts`). -/
def int_len (coils : List Coil) (i : ℕ) : ℕ := ((concat_counts coils).take i).sum

/-- Matrix entry for sensor `i` and pair `p`: sum of `all_grads` over the
sensor's own integration-point range
(`np.sum(all_grads[int_lens[pt_i]:int_lens[pt_i + 1]])`). -/
def basis_entry (origin : Fin 3 → ℝ) (coils : List Coil)
    (g_func : ℕ → ℤ → (Fin 3 → ℝ) → Fin 3 → ℝ) (p : ℕ × ℤ) (i : Fin coils.length) : ℝ :=
  (((all_grads_list origin coils g_func p).drop (int_len coils i)).take
    (coils.get i).pts.length).sum

/-- One side's matrix right after the fill loop (before magnetometer scaling
and column normalization); unwritten entries (`none`, the model of the
`np.nan` fill) are read as `0`, and the coverage theorem shows none remain. -/
def side_raw (origin : Fin 3 → ℝ) (coils : List Coil) (L : ℕ)
    (g_func : ℕ → ℤ → (Fin 3 → ℝ) → Fin 3 → ℝ) :
    Matrix (Fin coils.length) (Fin (n_basis_cols L)) ℝ :=
  Matrix.of fun i j =>
    ((fill_side L coils.length (basis_entry origin coils g_func)) i j).getD 0

open scoped Classical in
/-- Per-sensor scale: `100` for magnetometer-class coils
(`coil_class == 1.0`), `1` otherwise. -/
def coil_scale_vec (coils : List Coil) : Fin coils.length → ℝ :=
  fun i => if (coils.get i).coil_class = 1 then 100 else 1

/-- `spc *= coil_scale[:, np.newaxis]`. -/
def side_scaled (origin : Fin 3 → ℝ) (coils : List Coil) (L : ℕ)
    (g_func : ℕ → ℤ → (Fin 3 → ℝ) → Fin 3 → ℝ) :
    Matrix (Fin coils.length) (Fin (n_basis_cols L)) ℝ :=
  Matrix.of fun i j => coil_scale_vec coils i * side_raw origin coils L g_func i j

/-- `spc /= np.sqrt(np.sum(spc * spc, axis=0))[np.newaxis, :]`. -/
def side_norm (origin : Fin 3 → ℝ) (coils : List Coil) (L : ℕ)
    (g_func : ℕ → ℤ → (Fin 3 → ℝ) → Fin 3 → ℝ) :
    Matrix (Fin coils.length) (Fin (n_basis_cols L)) ℝ :=
  Matrix.of fun i j =>
    side_scaled origin coils L g_func i j /
      Real.sqrt (∑ i', (side_scaled origin coils L g_func i' j) ^ 2)

/-- The azimuth/polar bounds checked by `_sph_harmonic` (whose violation
raises), for every integration point's spherical coordinates. -/
def harmonic_domain_ok (origin : Fin 3 → ℝ) (coils : List Coil) : Prop :=
  ∀ pt ∈ concat_pts coils,
    -(2 * Real.pi) ≤ (sph_of_cart fun k => pt k - origin k) 1 ∧
    (sph_of_cart fun k => pt k - origin k) 1 ≤ 2 * Real.pi ∧
    0 ≤ (sph_of_cart fun k => pt k - origin k) 2 ∧
    (sph_of_cart fun k => pt k - origin k) 2 ≤ Real.pi

/-- The `|order| ≤ degree` check of `_sph_harmonic`, for every pair reached by
the loop. -/
def loop_orders_ok (L : ℕ) : Prop := ∀ p ∈ deg_ord_pairs L, |p.2| ≤ (p.1 : ℤ)

open scoped Classical in
/-- `_sss_basis`. The `n_bases > n_sens` check precedes the assembly loop and
raises `ValueError`; the `raise`s inside `_sph_harmonic` (azimuth/polar
domain, `|order| ≤ degree`) are hoisted into one explicit condition over all
integration points and loop pairs, which is proved to always hold
(`harmonic_domain_ok_always`, `loop_orders_ok_always`), matching the fact
that coordinates produced by `_cart_to_sph` never violate the checks. -/
def sss_basis (origin : Fin 3 → ℝ) (coils : List Coil) (int_order ext_order : ℕ) :
    Except String (Matrix (Fin coils.length) (Fin (n_basis_cols int_order)) ℝ ×
      Matrix (Fin coils.length) (Fin (n_basis_cols ext_order)) ℝ) :=
  if get_num_moments int_order ext_order > (concat_counts coils).length then
    Except.error ("Number of requested bases (" ++
      toString (get_num_moments int_order ext_order) ++
      ") exceeds number of sensors (" ++ toString (concat_counts coils).length ++ ")")
  else if harmonic_domain_ok origin coils ∧ loop_orders_ok int_order ∧
      loop_orders_ok ext_order then
    Except.ok (side_norm origin coils int_order grad_in_components,
      side_norm origin coils ext_order grad_out_components)
  else Except.error "spherical coordinate or order out of domain"

end Assembly

noncomputable section BasisLemmas

open scoped Real

theorem sph_of_cart_az_bounds (p : Fin 3 → ℝ) :
    -(2 * Real.pi) ≤ sph_of_cart p 1 ∧ sph_of_cart p 1 ≤ 2 * Real.pi := by
  have h1 := Complex.neg_pi_lt_arg (⟨p 0, p 1⟩ : ℂ)
  have h2 := Complex.arg_le_pi (⟨p 0, p 1⟩ : ℂ)
  have hπ := Real.pi_pos
  constructor <;>
    simp only [sph_of_cart, Matrix.cons_val_one, Matrix.head_cons] <;> linarith

theorem sph_of_cart_pol_bounds (p : Fin 3 → ℝ) :
    0 ≤ sph_of_cart p 2 ∧ sph_of_cart p 2 ≤ Real.pi := by
  constructor <;>
    simp only [sph_of_cart, Matrix.cons_val_two, Matrix.tail_cons, Matrix.head_cons]
  · exact Real.arccos_nonneg _
  · exact Real.arccos_le_pi _

theorem harmonic_domain_ok_always (origin : Fin 3 → ℝ) (coils : List Coil) :
    harmonic_domain_ok origin coils := by
  intro pt _
  exact ⟨(sph_of_cart_az_bounds _).1, (sph_of_cart_az_bounds _).2,
    (sph_of_cart_pol_bounds _).1, (sph_of_cart_pol_bounds _).2⟩

theorem loop_orders_ok_always (L : ℕ) : loop_orders_ok L := by
  intro p hp
  rw [mem_deg_ord_pairs] at hp
  obtain ⟨_, _, hlo, hhi⟩ := hp
  rw [abs_le]
  omega

theorem sss_basis_ok (origin : Fin 3 → ℝ) (coils : List Coil) (int_order ext_order : ℕ)
    (h : get_num_moments int_order ext_order ≤ coils.length) :
    sss_basis origin coils int_order ext_order =
      Except.ok (side_norm origin coils int_order grad_in_components,
        side_norm origin coils ext_order grad_out_components) := by
  have h1 : ¬ (get_num_moments int_order ext_order > (concat_counts coils).length) := by
    simpa [concat_counts] using h
  rw [sss_basis, if_neg h1, if_pos ⟨harmonic_domain_ok_always origin coils,
    loop_orders_ok_always int_order, loop_orders_ok_always ext_order⟩]

theorem sss_basis_error (origin : Fin 3 → ℝ) (coils : List Coil) (int_order ext_order : ℕ)
    (h : coils.length < get_num_moments int_order ext_order) :
    sss_basis origin coils int_order ext_order =
      Except.error ("Number of requested bases (" ++
        toString (get_num_moments int_order ext_order) ++
        ") exceeds number of sensors (" ++ toString (concat_counts coils).length ++ ")") := by
  have h1 : get_num_moments int_order ext_order > (concat_counts coils).length := by
    simpa [concat_counts] using h
  rw [sss_basis, if_pos h1]

/-- C4: `_sss_basis` rejects the call with an error exactly when the total
requested basis column count `int_order^2 + 2*int_order + ext_order^2 +
2*ext_order` exceeds the number of sensors; the check sits before the
assembly loop, so in the rejecting case no basis matrices are produced
(the `Except.error` result carries no matrices). -/
theorem sss_basis_rejects_iff_too_many_bases :
    ∀ (origin : Fin 3 → ℝ) (coils : List Coil) (int_order ext_order : ℕ),
      (∃ msg, sss_basis origin coils int_order ext_order = Except.error msg) ↔
        coils.length < get_num_moments int_order ext_order := by
  intro o cs io eo
  constructor
  · rintro ⟨msg, hmsg⟩
    by_contra h
    push_neg at h
    rw [sss_basis_ok o cs io eo h] at hmsg
    exact Except.noConfusion hmsg
  · intro h
    exact ⟨_, sss_basis_error o cs io eo h⟩

/-- C3: each side of the basis has exactly `(order + 1)^2 - 1` columns
(`n_basis_cols` is the column index bound in the type of `sss_basis`'s
result matrices), and `get_num_moments` equals the sum of the two column
counts. -/
theorem basis_col_counts_match_get_num_moments :
    ∀ int_order ext_order : ℕ,
      n_basis_cols int_order = (int_order + 1) ^ 2 - 1 ∧
      n_basis_cols ext_order = (ext_order + 1) ^ 2 - 1 ∧
      n_basis_cols int_order + n_basis_cols ext_order =
        get_num_moments int_order ext_order := by
  intro io eo
  have h : ∀ o : ℕ, n_basis_cols o = o ^ 2 + 2 * o := by
    intro o
    have ho : (o + 1) ^ 2 = o ^ 2 + 2 * o + 1 := by ring
    simp [n_basis_cols, ho]
  refine ⟨rfl, rfl, ?_⟩
  rw [h, h, get_num_moments]
  ring

theorem col_index_injOn (L : ℕ) :
    Set.InjOn col_index
      {p : ℕ × ℤ | 1 ≤ p.1 ∧ p.1 ≤ L ∧ -(p.1 : ℤ) ≤ p.2 ∧ p.2 ≤ (p.1 : ℤ)} := by
  rintro ⟨d, o⟩ hp ⟨d', o'⟩ hq heq
  obtain ⟨h1, hL, hlo, hhi⟩ := hp
  obtain ⟨h1', hL', hlo', hhi'⟩ := hq
  simp only [col_index] at heq
  dsimp only at heq hlo hhi hlo' hhi' ⊢
  have hdd : d = d' := by
    by_contra hne
    rcases Nat.lt_or_ge d d' with hlt | hge
    · have hz : ((d : ℤ) + 1) ≤ (d' : ℤ) := by exact_mod_cast hlt
      have h2 : ((d : ℤ) + 1) ^ 2 ≤ ((d' : ℤ)) ^ 2 :=
        pow_le_pow_left₀ (by positivity) hz 2
      nlinarith
    · have hlt : d' < d := by omega
      have hz : ((d' : ℤ) + 1) ≤ (d : ℤ) := by exact_mod_cast hlt
      have h2 : ((d' : ℤ) + 1) ^ 2 ≤ ((d : ℤ)) ^ 2 :=
        pow_le_pow_left₀ (by positivity) hz 2
      nlinarith
  subst hdd
  have ho : o = o' := by omega
  rw [Prod.mk.injEq]
  exact ⟨rfl, ho⟩

theorem col_index_surjOn (L : ℕ) :
    Set.SurjOn col_index
      {p : ℕ × ℤ | 1 ≤ p.1 ∧ p.1 ≤ L ∧ -(p.1 : ℤ) ≤ p.2 ∧ p.2 ≤ (p.1 : ℤ)}
      (Set.Icc 0 (((L : ℤ) + 1) ^ 2 - 2)) := by
  intro k hk
  rw [Set.mem_Icc] at hk
  obtain ⟨hk0, hk2⟩ := hk
  have hn : (((L + 1) ^ 2 : ℕ) : ℤ) = ((L : ℤ) + 1) ^ 2 := by push_cast; ring
  have hj : k.toNat < n_basis_cols L := by
    rw [n_basis_cols]
    omega
  obtain ⟨p, hp, hpj⟩ := col_index_surj L k.toNat hj
  have hnn := col_index_nonneg hp
  have hpk : col_index p = k := by omega
  exact ⟨p, mem_deg_ord_pairs.mp hp, hpk⟩

/-- C10: the `(degree, order) ↦ degree² + degree + order − 1` column-index map
of the assembly loop is a bijection from the loop's index domain onto
`{0, …, (L+1)² − 2}`, and consequently the fill loop of `_sss_basis` writes
every entry of each NaN-initialized side matrix (no `none`/NaN entry remains,
whatever the computed column values are). -/
theorem col_index_bijection_and_no_nan_left :
    ∀ L : ℕ,
      Set.BijOn col_index
        {p : ℕ × ℤ | 1 ≤ p.1 ∧ p.1 ≤ L ∧ -(p.1 : ℤ) ≤ p.2 ∧ p.2 ≤ (p.1 : ℤ)}
        (Set.Icc 0 (((L : ℤ) + 1) ^ 2 - 2)) ∧
      ∀ (n : ℕ) (f : ℕ × ℤ → Fin n → ℝ) (i : Fin n) (j : Fin (n_basis_cols L)),
        ((fill_side L n f) i j).isSome := by
  intro L
  refine ⟨⟨?_, col_index_injOn L, col_index_surjOn L⟩,
    fun n f i j => fill_side_isSome L n f i j⟩
  intro p hp
  have hmem := mem_deg_ord_pairs.mpr hp
  rw [Set.mem_Icc]
  exact ⟨col_index_nonneg hmem, col_index_lt hmem⟩

/-- Normalizing a matrix column of nonzero Euclidean norm by that norm yields
a unit-norm column. -/
theorem norm_col_of_ne_zero {n m : ℕ} (M : Matrix (Fin n) (Fin m) ℝ) (j : Fin m)
    (h : (fun i => M i j) ≠ 0) :
    Real.sqrt (∑ i, (M i j / Real.sqrt (∑ i', (M i' j) ^ 2)) ^ 2) = 1 := by
  set s := ∑ i', (M i' j) ^ 2 with hs
  have hs0 : 0 ≤ s := Finset.sum_nonneg fun i _ => sq_nonneg _
  have hsne : s ≠ 0 := by
    intro h0
    apply h
    funext i
    have hz : (M i j) ^ 2 = 0 := by
      have := (Finset.sum_eq_zero_iff_of_nonneg
        (fun i' _ => sq_nonneg (M i' j))).mp h0 i (Finset.mem_univ i)
      exact this
    have hzz : M i j = 0 := by
      have hns : (2 : ℕ) ≠ 0 := by norm_num
      exact pow_eq_zero_iff hns |>.mp hz
    simpa using hzz
  have hspos : 0 < s := lt_of_le_of_ne hs0 (Ne.symm hsne)
  have hsum : ∑ i, (M i j / Real.sqrt s) ^ 2 = s / (Real.sqrt s) ^ 2 := by
    simp only [div_pow]
    rw [← Finset.sum_div, ← hs]
  rw [hsum, Real.sq_sqrt hs0, div_self hsne, Real.sqrt_one]

end BasisLemmas

noncomputable section Projector

open Matrix

/-- `np.c_[S_in, S_out]`: horizontal concatenation `S_tot` of the two bases
(`Sum.inl` columns are the internal basis, `Sum.inr` columns the external). -/
def join_cols {n a b : ℕ} (A : Matrix (Fin n) (Fin a) ℝ) (B : Matrix (Fin n) (Fin b) ℝ) :
    Matrix (Fin n) (Fin a ⊕ Fin b) ℝ :=
  Matrix.of fun i => Sum.elim (A i) (B i)

/-- The four Moore-Penrose conditions: `P` is the (unique) pseudo-inverse of
`A`, the matrix `scipy.linalg.pinv` computes (the relative singular-value
cutoff `cond=1e-15` drops only exactly-zero singular values in exact
arithmetic, so the truncated pseudo-inverse coincides with the Moore-Penrose
pseudo-inverse in this embedding). -/
def IsPinv {n m : Type} [Fintype n] [Fintype m]
    (A : Matrix n m ℝ) (P : Matrix m n ℝ) : Prop :=
  A * P * A = A ∧ P * A * P = P ∧ (A * P)ᵀ = A * P ∧ (P * A)ᵀ = P * A

/-- `data * coil_scale[:, np.newaxis]`. -/
def scale_rows {n T : ℕ} (cs : Fin n → ℝ) (M : Matrix (Fin n) (Fin T) ℝ) :
    Matrix (Fin n) (Fin T) ℝ :=
  Matrix.of fun i t => M i t * cs i

/-- `recon / coil_scale[:, np.newaxis]`. -/
def unscale_rows {n T : ℕ} (cs : Fin n → ℝ) (M : Matrix (Fin n) (Fin T) ℝ) :
    Matrix (Fin n) (Fin T) ℝ :=
  Matrix.of fun i t => M i t / cs i

/-- `mm = np.dot(pS_tot, data * coil_scale[:, np.newaxis])` (Eq. 37). -/
def moments {n a b T : ℕ} (pS : Matrix (Fin a ⊕ Fin b) (Fin n) ℝ)
    (data : Matrix (Fin n) (Fin T) ℝ) (cs : Fin n → ℝ) :
    Matrix (Fin a ⊕ Fin b) (Fin T) ℝ :=
  pS * scale_rows cs data

/-- `mm[:S_in.shape[1], :]`: the leading block of rows of the moment matrix,
one row per internal-basis column. -/
def leading_rows {a b T : ℕ} (M : Matrix (Fin a ⊕ Fin b) (Fin T) ℝ) :
    Matrix (Fin a) (Fin T) ℝ :=
  M.submatrix Sum.inl id

/-- The projection-and-reconstruction step of `maxwell_filter` (lines 87-99):
`pS_tot = pinv(S_tot, cond=1e-15)`; `mm = pS_tot @ (data * cs)`;
`recon = S_in @ mm[:S_in.shape[1], :]`; result `recon / cs`.
`pinvFn` stands for `scipy.linalg.pinv`. -/
def maxwell_project {n a b T : ℕ}
    (pinvFn : Matrix (Fin n) (Fin a ⊕ Fin b) ℝ → Matrix (Fin a ⊕ Fin b) (Fin n) ℝ)
    (S_in : Matrix (Fin n) (Fin a) ℝ) (S_out : Matrix (Fin n) (Fin b) ℝ)
    (data : Matrix (Fin n) (Fin T) ℝ) (cs : Fin n → ℝ) :
    Matrix (Fin n) (Fin T) ℝ :=
  unscale_rows cs (S_in * leading_rows (moments (pinvFn (join_cols S_in S_out)) data cs))

end Projector

section ProjectorLemmas

open Matrix

/-- C1: the projector computes the moment matrix as the pseudo-inverse of the
combined basis applied to the magnetometer-scaled data, reconstructs by
multiplying `S_in` with exactly the leading `S_in.shape[1]` rows of the
moment matrix, and unscales the result: the returned reconstruction equals
`diag(1/coil_scale) * S_in * (pinv(S_tot) * (diag(coil_scale) * data))`
restricted to the leading (internal) row block. -/
theorem maxwell_project_closed_form :
    ∀ (n a b T : ℕ)
      (pinvFn : Matrix (Fin n) (Fin a ⊕ Fin b) ℝ → Matrix (Fin a ⊕ Fin b) (Fin n) ℝ)
      (S_in : Matrix (Fin n) (Fin a) ℝ) (S_out : Matrix (Fin n) (Fin b) ℝ)
      (data : Matrix (Fin n) (Fin T) ℝ) (cs : Fin n → ℝ),
      maxwell_project pinvFn S_in S_out data cs =
        Matrix.diagonal (fun i => (cs i)⁻¹) *
          (S_in * ((pinvFn (join_cols S_in S_out) *
            (Matrix.diagonal cs * data)).submatrix Sum.inl id)) := by
  intro n a b T pinvFn S_in S_out data cs
  have hscale : scale_rows cs data = Matrix.diagonal cs * data := by
    ext i t
    simp [scale_rows, Matrix.diagonal_mul, mul_comm]
  have hdiag : Matrix.diagonal (fun i => (cs i)⁻¹) *
      (S_in * ((pinvFn (join_cols S_in S_out) *
        (Matrix.diagonal cs * data)).submatrix Sum.inl id)) =
      unscale_rows cs (S_in * ((pinvFn (join_cols S_in S_out) *
        (Matrix.diagonal cs * data)).submatrix Sum.inl id)) := by
    ext i t
    simp [unscale_rows, Matrix.diagonal_mul, div_eq_inv_mul]
  rw [maxwell_project, moments, hscale, hdiag]
  rfl

theorem scale_unscale_rows {n T : ℕ} (cs : Fin n → ℝ) (M : Matrix (Fin n) (Fin T) ℝ)
    (hcs : ∀ i, cs i ≠ 0) : scale_rows cs (unscale_rows cs M) = M := by
  ext i t
  simp [scale_rows, unscale_rows, div_mul_cancel₀ _ (hcs i)]

/-- When the pseudo-inverse is a left inverse of the combined basis (full
column rank), picking the leading rows after multiplying back through `S_in`
recovers the coefficient matrix. -/
theorem leading_rows_P_S_in {n a b T : ℕ}
    (P : Matrix (Fin a ⊕ Fin b) (Fin n) ℝ)
    (S_in : Matrix (Fin n) (Fin a) ℝ) (S_out : Matrix (Fin n) (Fin b) ℝ)
    (hfr : P * join_cols S_in S_out = 1) (M : Matrix (Fin a) (Fin T) ℝ) :
    leading_rows (P * (S_in * M)) = M := by
  have hPS : ∀ (x : Fin a ⊕ Fin b) (j : Fin a),
      (P * S_in) x j = (1 : Matrix (Fin a ⊕ Fin b) (Fin a ⊕ Fin b) ℝ) x (Sum.inl j) := by
    intro x j
    have h1 : (P * S_in) x j = (P * join_cols S_in S_out) x (Sum.inl j) := by
      rw [Matrix.mul_apply, Matrix.mul_apply]
      rfl
    rw [h1, hfr]
  ext k t
  have h2 : (P * (S_in * M)) (Sum.inl k) t = ((P * S_in) * M) (Sum.inl k) t := by
    rw [← Matrix.mul_assoc]
  show (P * (S_in * M)) (Sum.inl k) t = M k t
  rw [h2, Matrix.mul_apply]
  have h3 : ∀ j : Fin a, (P * S_in) (Sum.inl k) j * M j t =
      (if k = j then M j t else 0) := by
    intro j
    rw [hPS (Sum.inl k) j, Matrix.one_apply]
    by_cases hkj : k = j
    · simp [hkj]
    · simp [hkj, Sum.inl.injEq]
  rw [Finset.sum_congr rfl fun j _ => h3 j]
  simp

/-- C6 (amended): on a combined basis of full column rank (the pseudo-inverse
is a left inverse of `S_tot`) and with nonzero per-sensor scales (the source
uses scales `1` and `100`), the projection-and-reconstruction step is
idempotent on data lying in the column span of `S_in`. -/
theorem maxwell_project_idempotent :
    ∀ (n a b T : ℕ)
      (pinvFn : Matrix (Fin n) (Fin a ⊕ Fin b) ℝ → Matrix (Fin a ⊕ Fin b) (Fin n) ℝ)
      (S_in : Matrix (Fin n) (Fin a) ℝ) (S_out : Matrix (Fin n) (Fin b) ℝ)
      (data : Matrix (Fin n) (Fin T) ℝ) (cs : Fin n → ℝ),
      pinvFn (join_cols S_in S_out) * join_cols S_in S_out = 1 →
      (∀ i, cs i ≠ 0) →
      (∃ C : Matrix (Fin a) (Fin T) ℝ, data = S_in * C) →
      maxwell_project pinvFn S_in S_out (maxwell_project pinvFn S_in S_out data cs) cs =
        maxwell_project pinvFn S_in S_out data cs := by
  intro n a b T pinvFn S_in S_out data cs hfr hcs _
  conv_lhs => rw [maxwell_project]
  rw [moments, maxwell_project, scale_unscale_rows cs _ hcs,
    leading_rows_P_S_in _ S_in S_out hfr]

end ProjectorLemmas

noncomputable section RankDeficient

open Matrix

/-- One sensor, one internal and one external basis column, both equal:
a rank-deficient combined basis `S_tot = [1 1]`. -/
def rankdef_S_in : Matrix (Fin 1) (Fin 1) ℝ := Matrix.of fun _ _ => 1

/-- External basis column identical to the internal one. -/
def rankdef_S_out : Matrix (Fin 1) (Fin 1) ℝ := Matrix.of fun _ _ => 1

/-- The Moore-Penrose pseudo-inverse of `[1 1]`, namely `[1/2; 1/2]`. -/
def rankdef_P : Matrix (Fin 1 ⊕ Fin 1) (Fin 1) ℝ := Matrix.of fun _ _ => 1 / 2

/-- Data equal to the (single) internal basis column. -/
def rankdef_data : Matrix (Fin 1) (Fin 1) ℝ := Matrix.of fun _ _ => 1

/-- Unit coil scale. -/
def rankdef_cs : Fin 1 → ℝ := fun _ => 1

theorem rankdef_pinv : IsPinv (join_cols rankdef_S_in rankdef_S_out) rankdef_P := by
  refine ⟨?_, ?_, ?_, ?_⟩ <;>
  · ext x y
    rcases x with x | x <;> rcases y with y | y <;>
      simp [join_cols, rankdef_S_in, rankdef_S_out, rankdef_P, Matrix.mul_apply,
        Fintype.sum_sum_type, Fin.sum_univ_one, Matrix.transpose_apply] <;>
      norm_num

theorem rankdef_project_eval :
    maxwell_project (fun _ => rankdef_P) rankdef_S_in rankdef_S_out rankdef_data rankdef_cs =
      Matrix.of fun _ _ => 1 / 2 := by
  ext i t
  simp [maxwell_project, unscale_rows, moments, scale_rows, leading_rows, join_cols,
    rankdef_S_in, rankdef_S_out, rankdef_P, rankdef_data, rankdef_cs,
    Matrix.mul_apply, Fin.sum_univ_one]

theorem rankdef_project_eval2 :
    maxwell_project (fun _ => rankdef_P) rankdef_S_in rankdef_S_out
        (Matrix.of fun _ _ => 1 / 2 : Matrix (Fin 1) (Fin 1) ℝ) rankdef_cs =
      (Matrix.of fun _ _ => 1 / 4 : Matrix (Fin 1) (Fin 1) ℝ) := by
  ext i t
  simp [maxwell_project, unscale_rows, moments, scale_rows, leading_rows, join_cols,
    rankdef_S_in, rankdef_S_out, rankdef_P, rankdef_cs,
    Matrix.mul_apply, Fin.sum_univ_one]
  norm_num

/-- C6 counterexample: with the rank-deficient combined basis `S_tot = [1 1]`
(one sensor, duplicated column), `P = [1/2; 1/2]` is its genuine Moore-Penrose
pseudo-inverse, the data `[1]` lies in the column span of `S_in`, yet applying
the projection-and-reconstruction step twice (`1/4`) differs from applying it
once (`1/2`): the projector is not idempotent on the internal subspace as
stated. -/
theorem maxwell_project_not_idempotent_on_rank_deficient_basis :
    IsPinv (join_cols rankdef_S_in rankdef_S_out) rankdef_P ∧
    rankdef_data = rankdef_S_in * (Matrix.of fun _ _ => (1 : ℝ)) ∧
    maxwell_project (fun _ => rankdef_P) rankdef_S_in rankdef_S_out
        (maxwell_project (fun _ => rankdef_P) rankdef_S_in rankdef_S_out
          rankdef_data rankdef_cs) rankdef_cs ≠
      maxwell_project (fun _ => rankdef_P) rankdef_S_in rankdef_S_out
        rankdef_data rankdef_cs := by
  refine ⟨rankdef_pinv, ?_, ?_⟩
  · ext i t
    simp [rankdef_data, rankdef_S_in, Matrix.mul_apply, Fin.sum_univ_one]
  · rw [rankdef_project_eval, rankdef_project_eval2]
    intro h
    have h00 := congrFun (congrFun h 0) 0
    simp only [Matrix.of_apply] at h00
    norm_num at h00

end RankDeficient

noncomputable section FullRankWitness

open Matrix

/-- One sensor, one internal column, no external columns: full-rank combined
basis for the idempotence witness. -/
def fr_S_in : Matrix (Fin 1) (Fin 1) ℝ := Matrix.of fun _ _ => 1

/-- Empty external basis. -/
def fr_S_out : Matrix (Fin 1) (Fin 0) ℝ := Matrix.of fun _ x => x.elim0

/-- Left inverse (and pseudo-inverse) of the combined basis `[1]`. -/
def fr_P : Matrix (Fin 1 ⊕ Fin 0) (Fin 1) ℝ := Matrix.of fun _ _ => 1

/-- Data in the span of the internal basis. -/
def fr_data : Matrix (Fin 1) (Fin 1) ℝ := fr_S_in * Matrix.of fun _ _ => 5

/-- Unit coil scale. -/
def fr_cs : Fin 1 → ℝ := fun _ => 1

theorem maxwell_project_idempotent_witness :
    ((fun _ => fr_P) (join_cols fr_S_in fr_S_out) * join_cols fr_S_in fr_S_out = 1) ∧
    (∀ i, fr_cs i ≠ 0) ∧
    (∃ C : Matrix (Fin 1) (Fin 1) ℝ, fr_data = fr_S_in * C) ∧
    maxwell_project (fun _ => fr_P) fr_S_in fr_S_out
        (maxwell_project (fun _ => fr_P) fr_S_in fr_S_out fr_data fr_cs) fr_cs =
      maxwell_project (fun _ => fr_P) fr_S_in fr_S_out fr_data fr_cs := by
  have h1 : ((fun _ => fr_P) (join_cols fr_S_in fr_S_out) * join_cols fr_S_in fr_S_out
      = (1 : Matrix (Fin 1 ⊕ Fin 0) (Fin 1 ⊕ Fin 0) ℝ)) := by
    ext x y
    rcases x with x | x
    · rcases y with y | y
      · simp [fr_P, fr_S_in, fr_S_out, join_cols, Matrix.mul_apply, Fin.sum_univ_one,
          Matrix.one_apply, Sum.inl.injEq, Fin.eq_zero x, Fin.eq_zero y]
      · exact y.elim0
    · exact x.elim0
  have h2 : ∀ i, fr_cs i ≠ 0 := fun i => one_ne_zero
  have h3 : ∃ C : Matrix (Fin 1) (Fin 1) ℝ, fr_data = fr_S_in * C :=
    ⟨Matrix.of fun _ _ => 5, rfl⟩
  exact ⟨h1, h2, h3,
    maxwell_project_idempotent 1 1 0 1 (fun _ => fr_P) fr_S_in fr_S_out fr_data fr_cs h1 h2 h3⟩

end FullRankWitness

noncomputable section Orchestrator

/-- Provenance record appended by `_update_info`
(`dict(int_order=..., ext_order=..., origin=..., nsens=..., nmoments=...,
creator='MNE's Maxwell Filter')`). -/
structure ProvRecord where
  int_order : ℕ
  ext_order : ℕ
  origin : Fin 3 → ℝ
  nsens : ℕ
  nmoments : ℕ
  creator : String

/-- The time-series container (`mne.io.Raw`), reduced to the fields the
filter touches: channel names, the defective-channel list `info['bads']`, one
data row per channel (`T` time samples), the optional
`info['proc_history']`, and `info['maxshield']`. -/
structure RawData (T : ℕ) where
  chNames : List String
  bads : List String
  rows : List (Fin T → ℝ)
  procHistory : Option (List ProvRecord)
  maxshield : Bool

/-- `raw.pick_channels(names)`: restrict the container in place to the
channels whose name is in `names`, keeping the container's own order.
(The real method also prunes `bads`; the filter only reaches this call with
`bads = []`.) -/
def pick_channels {T : ℕ} (raw : RawData T) (names : List String) : RawData T :=
  let keep := (raw.chNames.zip raw.rows).filter fun pr => pr.1 ∈ names
  { raw with chNames := keep.map Prod.fst, rows := keep.map Prod.snd }

/-- `_update_info`: set `maxshield`, prepend the provenance record to
`proc_history` (creating the list when absent). -/
def update_info {T : ℕ} (raw : RawData T) (origin : Fin 3 → ℝ)
    (int_order ext_order nsens nmoments : ℕ) : RawData T :=
  { raw with
    maxshield := false
    procHistory := some
      ({ int_order := int_order
         ext_order := ext_order
         origin := origin
         nsens := nsens
         nmoments := nmoments
         creator := "MNE's Maxwell Filter" } :: raw.procHistory.getD []) }

/-- Python `list.index`: position of the first occurrence, `ValueError` when
absent (`raw.info['ch_names'].index(coil['chname'])`). -/
def py_index (l : List String) (x : String) : Except String ℕ :=
  match l with
  | [] => Except.error (x ++ " is not in list")
  | y :: ys =>
    if y = x then Except.ok 0
    else (py_index ys x).map (· + 1)

/-- Python list subscript: `IndexError` past the end
(`all_coils[ci]`, `raw[picks, :]`). -/
def py_get {α : Type} (l : List α) (i : ℕ) : Except String α :=
  match l, i with
  | [], _ => Except.error "list index out of range"
  | a :: _, 0 => Except.ok a
  | _ :: as, i + 1 => py_get as i

/-- A Python list comprehension over a fallible body: evaluate left to right,
abort on the first exception. -/
def except_map_list {α β : Type} (f : α → Except String β) : List α → Except String (List β)
  | [] => Except.ok []
  | a :: as => do
    let b ← f a
    let bs ← except_map_list f as
    Except.ok (b :: bs)

/-- `maxwell_filter`. `pinvFn` stands for `scipy.linalg.pinv`; `all_coils` is
the output of `_make_coils` (whose callees — channel picking and coil-template
construction — live outside this source file: per the spec it yields one coil
descriptor per MEG channel present). The embedding returns the pair
`(final state of the mutated input container, raw_sss)`: the Python function
returns only `raw_sss`, but mutates its `raw` argument in place through
`raw.pick_channels` (line 75), and the first component exposes that final
state. Steps, in source order: reject when `bads` is nonempty; reject when no
MEG channels were found (inside `_make_coils`); `picks` = index of each coil's
channel name in the *original* channel list; `coils` = `all_coils` indexed by
`picks`; `raw.pick_channels(...)` (mutation); `data = raw[picks, :]` against
the *mutated* container; per-sensor scale; origin mm→m; `_sss_basis`;
projection/reconstruction; `raw_sss` = provenance-updated copy of the mutated
container with its data rows replaced. -/
def maxwell_filter (T : ℕ)
    (pinvFn : (n a b : ℕ) → Matrix (Fin n) (Fin a ⊕ Fin b) ℝ →
      Matrix (Fin a ⊕ Fin b) (Fin n) ℝ)
    (all_coils : List Coil) (raw : RawData T)
    (origin : Fin 3 → ℝ) (int_order ext_order : ℕ) :
    Except String (RawData T × RawData T) :=
  if raw.bads ≠ [] then
    Except.error "Maxwell filter does not yet handle bad channels."
  else if all_coils.length = 0 then
    Except.error "Could not find any MEG channels"
  else do
    let picks ← except_map_list (fun c => py_index raw.chNames c.chname) all_coils
    let coils ← except_map_list (fun ci => py_get all_coils ci) picks
    let raw2 := pick_channels raw (coils.map Coil.chname)
    let dataRows ← except_map_list (fun ci => py_get raw2.rows ci) picks
    let originM : Fin 3 → ℝ := fun k => origin k / 1000
    let SS ← sss_basis originM coils int_order ext_order
    let dataM : Matrix (Fin coils.length) (Fin T) ℝ :=
      Matrix.of fun i t => ((dataRows.get? (i : ℕ)).getD (fun _ => 0)) t
    let recon := maxwell_project
      (pinvFn coils.length (n_basis_cols int_order) (n_basis_cols ext_order))
      SS.1 SS.2 dataM (coil_scale_vec coils)
    let raw_sss := update_info raw2 originM int_order ext_order dataRows.length
      (n_basis_cols int_order + n_basis_cols ext_order)
    Except.ok (raw2, { raw_sss with rows := List.ofFn fun i : Fin coils.length => recon i })

end Orchestrator

section OrchestratorLemmas

/-- C5: whenever any channel is flagged defective, `maxwell_filter` fails
with the bad-channels error; the check is the first statement of the
function, before coil construction, basis assembly or projection. -/
theorem maxwell_filter_rejects_bad_channels :
    ∀ (T : ℕ)
      (pinvFn : (n a b : ℕ) → Matrix (Fin n) (Fin a ⊕ Fin b) ℝ →
        Matrix (Fin a ⊕ Fin b) (Fin n) ℝ)
      (all_coils : List Coil) (raw : RawData T) (origin : Fin 3 → ℝ)
      (int_order ext_order : ℕ),
      raw.bads ≠ [] →
      maxwell_filter T pinvFn all_coils raw origin int_order ext_order =
        Except.error "Maxwell filter does not yet handle bad channels." := by
  intro T pinvFn all_coils raw origin io eo h
  rw [maxwell_filter, if_pos h]

/-- A container with its single channel flagged defective. -/
def bad_raw : RawData 1 :=
  { chNames := ["MEG 0111"], bads := ["MEG 0111"], rows := [fun _ => 0],
    procHistory := none, maxshield := false }

theorem maxwell_filter_rejects_bad_channels_witness :
    bad_raw.bads ≠ [] ∧
    maxwell_filter 1 (fun _ _ _ _ => 0) [] bad_raw ![0, 0, 40] 8 3 =
      Except.error "Maxwell filter does not yet handle bad channels." := by
  have h : bad_raw.bads ≠ [] := by simp [bad_raw]
  exact ⟨h, maxwell_filter_rejects_bad_channels 1 _ [] bad_raw ![0, 0, 40] 8 3 h⟩

/-- C7 (amended): `_cart_to_sph` never fails; it contains no zero-radius
guard, so a zero-norm point yields an undefined polar angle in a normally
returned result rather than an error. -/
theorem cart_to_sph_never_fails :
    ∀ pts : List (Fin 3 → ℝ), cart_to_sph pts = Except.ok (pts.map sph_of_cart) := by
  intro pts
  rfl

/-- C7 counterexample: the all-zero point has radius `0`, yet `_cart_to_sph`
returns a normal (`Except.ok`) result on an input sequence containing it —
it does not fail. -/
theorem cart_to_sph_zero_radius_returns :
    sph_of_cart (fun _ => (0 : ℝ)) 0 = 0 ∧
    cart_to_sph [fun _ => (0 : ℝ)] = Except.ok [sph_of_cart fun _ => (0 : ℝ)] := by
  constructor
  · simp [sph_of_cart]
  · rfl

end OrchestratorLemmas

noncomputable section MisindexBug

/-- A single MEG coil whose channel sits *after* a non-MEG channel in the
container's channel list. -/
def c8_coil : Coil :=
  { chname := "MEG 0111"
    coil_class := 1
    pts := [![0, 0, 1]]
    normals := [![0, 0, 1]]
    weights := [1] }

/-- Container with one EEG channel before the MEG channel. -/
def c8_raw : RawData 1 :=
  { chNames := ["EEG 001", "MEG 0111"]
    bads := []
    rows := [fun _ => 0, fun _ => 0]
    procHistory := none
    maxshield := false }

/-- C8 failing input: `picks = [1]` (the raw-channel index of the MEG
channel), and line 74 `coils = [all_coils[ci] for ci in picks]` indexes the
*coil* list with that raw-channel index — `all_coils[1]` on a one-element coil
list raises `IndexError`, so the claimed coil/data-row alignment cannot hold;
whenever any non-MEG channel precedes a MEG channel the call crashes (or, when
the indices stay in range, silently pairs rows with the wrong coils). -/
theorem maxwell_filter_coil_misindex_crash :
    maxwell_filter 1 (fun _ _ _ _ => 0) [c8_coil] c8_raw ![0, 0, 40] 8 3 =
      Except.error "list index out of range" := by
  rfl

end MisindexBug

noncomputable section MutationRun

/-- First MEG coil (gradiometer class) for the mutation run. -/
def c9_coil1 : Coil :=
  { chname := "MEG 0111"
    coil_class := 0
    pts := [![0, 0, 1]]
    normals := [![0, 0, 1]]
    weights := [1] }

/-- Second MEG coil for the mutation run. -/
def c9_coil2 : Coil :=
  { chname := "MEG 0112"
    coil_class := 0
    pts := [![0, 0, 1]]
    normals := [![0, 0, 1]]
    weights := [1] }

/-- Container with two MEG channels followed by one EEG channel. -/
def c9_raw : RawData 1 :=
  { chNames := ["MEG 0111", "MEG 0112", "EEG 001"]
    bads := []
    rows := [0, 0, 0]
    procHistory := none
    maxshield := false }

/-- Origin converted from millimeters to meters, as built inside the call. -/
def c9_originM : Fin 3 → ℝ := fun k => (![0, 0, 40] : Fin 3 → ℝ) k / 1000

/-- Final state of the input container after the call: the EEG channel has
been dropped in place by `raw.pick_channels`. -/
def c9_rfin : RawData 1 :=
  { chNames := ["MEG 0111", "MEG 0112"]
    bads := []
    rows := [0, 0]
    procHistory := none
    maxshield := false }

/-- The returned `raw_sss`: data rows replaced by the reconstruction (zero,
since the expansion orders are zero) and a provenance record prepended. -/
def c9_rsss : RawData 1 :=
  { chNames := ["MEG 0111", "MEG 0112"]
    bads := []
    rows := [0, 0]
    procHistory := some
      [{ int_order := 0
         ext_order := 0
         origin := c9_originM
         nsens := 2
         nmoments := 0
         creator := "MNE's Maxwell Filter" }]
    maxshield := false }

/-- With the zero pseudo-inverse stand-in, the projector returns zero. -/
theorem maxwell_project_zero {n a b T : ℕ}
    (S_in : Matrix (Fin n) (Fin a) ℝ) (S_out : Matrix (Fin n) (Fin b) ℝ)
    (data : Matrix (Fin n) (Fin T) ℝ) (cs : Fin n → ℝ) :
    maxwell_project (fun _ => (0 : Matrix (Fin a ⊕ Fin b) (Fin n) ℝ)) S_in S_out data cs
      = 0 := by
  ext i t
  simp [maxwell_project, moments, leading_rows, unscale_rows, Matrix.zero_mul,
    Matrix.mul_zero, Matrix.submatrix_zero]

theorem c9_coil1_chname : c9_coil1.chname = "MEG 0111" := rfl

theorem c9_coil2_chname : c9_coil2.chname = "MEG 0112" := rfl

/-- Full evaluation of one successful filtering call on `c9_raw`: the call
returns `Except.ok`, the mutated input has lost its EEG channel, and the
output carries the provenance record. -/
theorem c9_eval :
    maxwell_filter 1 (fun _ _ _ _ => 0) [c9_coil1, c9_coil2] c9_raw ![0, 0, 40] 0 0 =
      Except.ok (c9_rfin, c9_rsss) := by
  have hsss : sss_basis (fun k => (![0, 0, 40] : Fin 3 → ℝ) k / 1000)
      [c9_coil1, c9_coil2] 0 0 =
      Except.ok (side_norm (fun k => (![0, 0, 40] : Fin 3 → ℝ) k / 1000)
          [c9_coil1, c9_coil2] 0 grad_in_components,
        side_norm (fun k => (![0, 0, 40] : Fin 3 → ℝ) k / 1000)
          [c9_coil1, c9_coil2] 0 grad_out_components) :=
    sss_basis_ok _ _ 0 0 (by norm_num [get_num_moments])
  rw [maxwell_filter]
  rw [if_neg (by simp [c9_raw]), if_neg (by simp)]
  simp [c9_raw, c9_coil1_chname, c9_coil2_chname, except_map_list, py_index, py_get,
    bind, Except.bind, Except.map, pick_channels, hsss, maxwell_project_zero,
    update_info, c9_rfin, c9_rsss, c9_originM, List.ofFn_succ, List.ofFn_zero,
    Except.ok.injEq, Prod.mk.injEq, List.filter, n_basis_cols, Pi.zero_apply]
  exact ⟨⟨rfl, rfl⟩, rfl⟩

/-- C9 counterexample: on a container holding an EEG channel besides the MEG
channels, the filtering call succeeds but leaves the input container with
channel list `["MEG 0111", "MEG 0112"]` — different from its original
channel list — because `raw.pick_channels` (line 75) restricts the input in
place: the call does not leave the input container unmodified. -/
theorem maxwell_filter_mutates_input :
    Except.map (fun pr : RawData 1 × RawData 1 => pr.1.chNames)
      (maxwell_filter 1 (fun _ _ _ _ => 0) [c9_coil1, c9_coil2] c9_raw ![0, 0, 40] 0 0)
      = Except.ok ["MEG 0111", "MEG 0112"] ∧
    c9_raw.chNames ≠ ["MEG 0111", "MEG 0112"] := by
  constructor
  · rw [c9_eval]
    rfl
  · simp [c9_raw]

end MutationRun

section FrameEffects

theorem zip_map_fst_snd {α β : Type} (l : List (α × β)) :
    (l.map Prod.fst).zip (l.map Prod.snd) = l := by
  induction l with
  | nil => rfl
  | cons a l ih => simp [ih]

theorem except_map_list_length {α β : Type} (f : α → Except String β)
    (l : List α) (l' : List β) (h : except_map_list f l = Except.ok l') :
    l'.length = l.length := by
  induction l generalizing l' with
  | nil =>
    rw [except_map_list] at h
    cases h
    rfl
  | cons a as ih =>
    rw [except_map_list] at h
    cases hfa : f a with
    | error e => rw [hfa] at h; simp [bind, Except.bind] at h
    | ok b =>
      rw [hfa] at h
      simp only [bind, Except.bind] at h
      cases hrest : except_map_list f as with
      | error e => rw [hrest] at h; simp at h
      | ok bs =>
        rw [hrest] at h
        simp only at h
        cases h
        simp [ih bs hrest]

/-- C9 (amended): a successful `maxwell_filter` call returns a fresh container
built from the channel-restricted input (channel names kept, `maxshield`
cleared, data rows replaced, provenance record prepended) — but it mutates
the input container in place through `raw.pick_channels`: the input ends as a
channel-restricted sublist of its original self (`bads`, `proc_history` and
`maxshield` untouched), and is unmodified only when it already equals that
restriction. -/
theorem maxwell_filter_frame_effects :
    ∀ (T : ℕ)
      (pinvFn : (n a b : ℕ) → Matrix (Fin n) (Fin a ⊕ Fin b) ℝ →
        Matrix (Fin a ⊕ Fin b) (Fin n) ℝ)
      (all_coils : List Coil) (raw : RawData T) (origin : Fin 3 → ℝ)
      (int_order ext_order : ℕ) (rfin rsss : RawData T),
      maxwell_filter T pinvFn all_coils raw origin int_order ext_order =
        Except.ok (rfin, rsss) →
      (rfin.bads = raw.bads ∧ rfin.procHistory = raw.procHistory ∧
        rfin.maxshield = raw.maxshield ∧
        List.Sublist (rfin.chNames.zip rfin.rows) (raw.chNames.zip raw.rows)) ∧
      (rsss.chNames = rfin.chNames ∧ rsss.bads = rfin.bads ∧
        rsss.maxshield = false ∧
        rsss.procHistory = some
          ({ int_order := int_order
             ext_order := ext_order
             origin := fun k => origin k / 1000
             nsens := all_coils.length
             nmoments := n_basis_cols int_order + n_basis_cols ext_order
             creator := "MNE's Maxwell Filter" } :: rfin.procHistory.getD [])) := by
  intro T pinvFn all_coils raw origin io eo rfin rsss h
  rw [maxwell_filter] at h
  split at h
  · exact absurd h (by simp)
  split at h
  · exact absurd h (by simp)
  cases hpicks : except_map_list (fun c => py_index raw.chNames c.chname) all_coils with
  | error e => rw [hpicks] at h; simp [bind, Except.bind] at h
  | ok picks =>
  rw [hpicks] at h
  simp only [bind, Except.bind] at h
  cases hcoils : except_map_list (fun ci => py_get all_coils ci) picks with
  | error e => rw [hcoils] at h; simp at h
  | ok coils =>
  rw [hcoils] at h
  simp only at h
  cases hdata : except_map_list
      (fun ci => py_get (pick_channels raw (coils.map Coil.chname)).rows ci) picks with
  | error e => rw [hdata] at h; simp at h
  | ok dataRows =>
  rw [hdata] at h
  simp only at h
  cases hS : sss_basis (fun k => origin k / 1000) coils io eo with
  | error e => rw [hS] at h; simp at h
  | ok SS =>
  rw [hS] at h
  simp only [Except.ok.injEq, Prod.mk.injEq] at h
  obtain ⟨hfin, hsss⟩ := h
  have hlen1 : picks.length = all_coils.length := except_map_list_length _ _ _ hpicks
  have hlen2 : dataRows.length = picks.length := except_map_list_length _ _ _ hdata
  subst hfin
  subst hsss
  constructor
  · refine ⟨rfl, rfl, rfl, ?_⟩
    show List.Sublist (((_ : List (String × (Fin T → ℝ))).map Prod.fst).zip
      ((_ : List (String × (Fin T → ℝ))).map Prod.snd)) _
    rw [zip_map_fst_snd]
    exact List.filter_sublist _
  · refine ⟨rfl, rfl, rfl, ?_⟩
    show some _ = some _
    rw [Option.some.injEq]
    rw [List.cons.injEq]
    constructor
    · rw [ProvRecord.mk.injEq]
      exact ⟨rfl, rfl, rfl, by rw [hlen2, hlen1], rfl, rfl⟩
    · rfl

theorem maxwell_filter_frame_effects_witness :
    (maxwell_filter 1 (fun _ _ _ _ => 0) [c9_coil1, c9_coil2] c9_raw ![0, 0, 40] 0 0 =
      Except.ok (c9_rfin, c9_rsss)) ∧
    ((c9_rfin.bads = c9_raw.bads ∧ c9_rfin.procHistory = c9_raw.procHistory ∧
        c9_rfin.maxshield = c9_raw.maxshield ∧
        List.Sublist (c9_rfin.chNames.zip c9_rfin.rows) (c9_raw.chNames.zip c9_raw.rows)) ∧
      (c9_rsss.chNames = c9_rfin.chNames ∧ c9_rsss.bads = c9_rfin.bads ∧
        c9_rsss.maxshield = false ∧
        c9_rsss.procHistory = some
          ({ int_order := 0
             ext_order := 0
             origin := fun k => (![0, 0, 40] : Fin 3 → ℝ) k / 1000
             nsens := 2
             nmoments := n_basis_cols 0 + n_basis_cols 0
             creator := "MNE's Maxwell Filter" } :: c9_rfin.procHistory.getD []))) :=
  ⟨c9_eval,
    maxwell_filter_frame_effects 1 (fun _ _ _ _ => 0) [c9_coil1, c9_coil2] c9_raw
      ![0, 0, 40] 0 0 c9_rfin c9_rsss c9_eval⟩

end FrameEffects

noncomputable section UnitNorm

open scoped Real

/-- C2 (amended): for every valid input (requested basis columns not
exceeding the sensor count, so that `_sss_basis` succeeds), every column of
the returned matrices whose pre-normalization column — the quadrature
entries with each magnetometer-class row already multiplied by 100, which is
exactly what the normalization step divides by — is nonzero has unit
Euclidean norm. (An all-zero column is left NaN by the `0 / 0` normalization
in the float code, norm `0` in the exact embedding; see the counterexample.) -/
theorem sss_basis_unit_norm_columns :
    ∀ (origin : Fin 3 → ℝ) (coils : List Coil) (int_order ext_order : ℕ)
      (S_in : Matrix (Fin coils.length) (Fin (n_basis_cols int_order)) ℝ)
      (S_out : Matrix (Fin coils.length) (Fin (n_basis_cols ext_order)) ℝ),
      sss_basis origin coils int_order ext_order = Except.ok (S_in, S_out) →
      (∀ j, (fun i => side_scaled origin coils int_order grad_in_components i j) ≠ 0 →
        Real.sqrt (∑ i, (S_in i j) ^ 2) = 1) ∧
      (∀ j, (fun i => side_scaled origin coils ext_order grad_out_components i j) ≠ 0 →
        Real.sqrt (∑ i, (S_out i j) ^ 2) = 1) := by
  intro origin coils io eo S_in S_out hok
  by_cases hv : get_num_moments io eo ≤ coils.length
  · rw [sss_basis_ok origin coils io eo hv] at hok
    simp only [Except.ok.injEq, Prod.mk.injEq] at hok
    obtain ⟨hin, hout⟩ := hok
    constructor
    · intro j hj
      rw [← hin]
      exact norm_col_of_ne_zero (side_scaled origin coils io grad_in_components) j hj
    · intro j hj
      rw [← hout]
      exact norm_col_of_ne_zero (side_scaled origin coils eo grad_out_components) j hj
  · rw [sss_basis_error origin coils io eo (by omega)] at hok
    exact Except.noConfusion hok

/-- A coil with quadrature weight `0` — type-valid geometry on which every
quadrature sum, hence every basis entry, is exactly zero. -/
def z_coil : Coil :=
  { chname := "MEG 0111"
    coil_class := 0
    pts := [![1, 0, 0]]
    normals := [![0, 0, 1]]
    weights := [0] }

theorem z_fill_entry (i : Fin ([z_coil, z_coil, z_coil] : List Coil).length)
    (j : Fin (n_basis_cols 1)) :
    side_raw 0 [z_coil, z_coil, z_coil] 1 grad_in_components i j = 0 := by
  have hgrads : all_grads_list 0 [z_coil, z_coil, z_coil] grad_in_components =
      fun _ => [0, 0, 0] := by
    funext p
    simp [all_grads_list, concat_weights, concat_pts, concat_normals, z_coil,
      List.zipWith]
  have hentry : ∀ (p : ℕ × ℤ) (i : Fin ([z_coil, z_coil, z_coil] : List Coil).length),
      basis_entry 0 [z_coil, z_coil, z_coil] grad_in_components p i = 0 := by
    intro p i
    rw [basis_entry, hgrads]
    fin_cases i <;> simp [int_len, concat_counts, z_coil]
  fin_cases j <;>
    simp [side_raw, fill_side, deg_ord_pairs, List.range_succ, write_col, col_index,
      hentry]

/-- C2 counterexample: three single-point coils with quadrature weight `0`
form a valid input for `(int_order, ext_order) = (1, 0)` (3 requested columns,
3 sensors), and `_sss_basis` succeeds — but every entry of the internal basis
is `0`, so its columns are `0/0`-normalized (NaN in the float code) and no
column has unit Euclidean norm: the unit-norm claim fails without a
nonzero-column proviso. -/
theorem sss_basis_zero_column_not_unit_norm :
    sss_basis 0 [z_coil, z_coil, z_coil] 1 0 =
      Except.ok (side_norm 0 [z_coil, z_coil, z_coil] 1 grad_in_components,
        side_norm 0 [z_coil, z_coil, z_coil] 0 grad_out_components) ∧
    ¬ (∀ j, Real.sqrt (∑ i,
        (side_norm 0 [z_coil, z_coil, z_coil] 1 grad_in_components i j) ^ 2) = 1) := by
  constructor
  · exact sss_basis_ok 0 [z_coil, z_coil, z_coil] 1 0 (by norm_num [get_num_moments])
  · intro hall
    have h0 : Real.sqrt (∑ i,
        (side_norm 0 [z_coil, z_coil, z_coil] 1 grad_in_components i
          ⟨0, by norm_num [n_basis_cols]⟩) ^ 2) = 0 := by
      have hz : ∀ i, side_norm 0 [z_coil, z_coil, z_coil] 1 grad_in_components i
          ⟨0, by norm_num [n_basis_cols]⟩ = 0 := by
        intro i
        simp [side_norm, side_scaled, z_fill_entry]
      rw [Finset.sum_congr rfl fun i _ => by rw [hz i]]
      simp
    rw [hall ⟨0, by norm_num [n_basis_cols]⟩] at h0
    norm_num at h0

end UnitNorm

section LegendreValues

open Polynomial

theorem sci_factorial_zero : sci_factorial 0 = 1 := by
  norm_num [sci_factorial, Nat.factorial]

theorem sci_factorial_one : sci_factorial 1 = 1 := by
  norm_num [sci_factorial, Nat.factorial]

theorem sci_factorial_two : sci_factorial 2 = 2 := by
  norm_num [sci_factorial, Nat.factorial]

theorem legendre_diff_one_one :
    legendre_diff 1 1 = Polynomial.C 2 * Polynomial.X := by
  rw [legendre_diff, Function.iterate_one, pow_one]
  rw [Polynomial.derivative_sub, Polynomial.derivative_one, Polynomial.derivative_X_pow]
  norm_num

theorem legendre_diff_one_two : legendre_diff 1 2 = Polynomial.C 2 := by
  have h : legendre_diff 1 2 = Polynomial.derivative (legendre_diff 1 1) := by
    rw [legendre_diff, legendre_diff, Function.iterate_succ_apply']
  rw [h, legendre_diff_one_one]
  simp

theorem lpmv_zero_one_zero : lpmv 0 1 0 = 0 := by
  rw [lpmv, if_pos (le_refl (0 : ℤ))]
  rw [lpmv_nn]
  norm_num [legendre_diff_one_one]

theorem lpmv_one_one_zero : lpmv 1 1 0 = -1 := by
  rw [lpmv, if_pos (by norm_num : (0 : ℤ) ≤ 1)]
  rw [lpmv_nn]
  norm_num [legendre_diff_one_two, Nat.factorial]

theorem lpmv_neg_one_one_zero : lpmv (-1) 1 0 = 1 / 2 := by
  rw [lpmv, if_neg (by norm_num : ¬ (0 : ℤ) ≤ -1)]
  have h1 : lpmv_nn (-(-1 : ℤ)).toNat 1 0 = -1 := by
    have : (-(-1 : ℤ)).toNat = 1 := rfl
    rw [this, lpmv_nn]
    norm_num [legendre_diff_one_two, Nat.factorial]
  rw [h1]
  have h2 : ((1 : ℕ) : ℤ) + (-1) = 0 := by norm_num
  have h3 : ((1 : ℕ) : ℤ) - (-1) = 2 := by norm_num
  rw [h2, h3, sci_factorial_zero, sci_factorial_two]
  norm_num

theorem alegendre_deriv_one_zero_zero : alegendre_deriv 1 0 0 = 1 := by
  rw [alegendre_deriv]
  norm_num [lpmv_zero_one_zero, lpmv_neg_one_one_zero]

end LegendreValues

section GradientValues

open scoped Real

theorem w_sph : sph_of_cart ![1, 0, 0] = ![1, 0, Real.pi / 2] := by
  funext k
  fin_cases k
  · show Real.sqrt ((1 : ℝ) ^ 2 + 0 ^ 2 + 0 ^ 2) = 1
    norm_num
  · show Complex.arg ⟨1, 0⟩ = 0
    have h : (⟨1, 0⟩ : ℂ) = 1 := Complex.ext rfl rfl
    rw [h, Complex.arg_one]
  · show Real.arccos (0 / Real.sqrt ((1 : ℝ) ^ 2 + 0 ^ 2 + 0 ^ 2)) = Real.pi / 2
    norm_num [Real.arccos_zero]

theorem sph_harmonic_val_one_zero : sph_harmonic_val 1 0 0 (Real.pi / 2) = 0 := by
  rw [sph_harmonic_val]
  rw [Real.cos_pi_div_two]
  rw [lpmv_zero_one_zero]
  simp

theorem w_grad :
    grad_in_components 1 0 ![1, 0, Real.pi / 2] =
      ![0, 0, Real.sqrt (3 / (4 * Real.pi))] := by
  rw [grad_in_components]
  funext k
  have h0 : (![1, 0, Real.pi / 2] : Fin 3 → ℝ) 0 = 1 := rfl
  have h1 : (![1, 0, Real.pi / 2] : Fin 3 → ℝ) 1 = 0 := rfl
  have h2 : (![1, 0, Real.pi / 2] : Fin 3 → ℝ) 2 = Real.pi / 2 := rfl
  simp only [h0, h1, h2, sph_harmonic_val_one_zero]
  rw [get_real_grad, if_neg (by norm_num), if_neg (by norm_num)]
  rw [sph_to_cart_grads]
  have hY : ∀ z : ℂ, z * 0 = 0 := fun z => mul_zero z
  fin_cases k <;>
    (simp [Real.cos_pi_div_two, Real.sin_pi_div_two, Real.cos_zero, Real.sin_zero,
      alegendre_deriv_one_zero_zero, sci_factorial_one,
      Complex.exp_zero, Complex.ofReal_re];
     try norm_num [Matrix.cons_val_zero, Matrix.cons_val_one, Matrix.head_cons,
      Matrix.cons_val_two, Matrix.tail_cons])

end GradientValues

noncomputable section UnitNormWitness

open scoped Real

/-- A gradiometer-class coil with one integration point on the x-axis,
z-directed normal and unit weight: its `(degree, order) = (1, 0)` basis entry
is `-√(3/(4π)) ≠ 0`. -/
def w_coil : Coil :=
  { chname := "MEG 0113"
    coil_class := 0
    pts := [![1, 0, 0]]
    normals := [![0, 0, 1]]
    weights := [1] }

theorem w_point_grads :
    all_grads_list 0 [w_coil, w_coil, w_coil] grad_in_components (1, 0) =
      [-Real.sqrt (3 / (4 * Real.pi)), -Real.sqrt (3 / (4 * Real.pi)),
        -Real.sqrt (3 / (4 * Real.pi))] := by
  have hpt : (fun k' => (![1, 0, 0] : Fin 3 → ℝ) k' - (0 : Fin 3 → ℝ) k') =
      ![1, 0, 0] := by
    funext k'
    simp
  rw [all_grads_list]
  simp only [concat_weights, concat_pts, concat_normals, w_coil, List.flatMap_cons,
    List.flatMap_nil, List.append_nil, List.zipWith, hpt, w_sph, w_grad]
  have hdot : dot3 (fun k => -((![0, 0, Real.sqrt (3 / (4 * Real.pi))] : Fin 3 → ℝ) k))
      ![0, 0, 1] = -Real.sqrt (3 / (4 * Real.pi)) := by
    rw [dot3]
    norm_num [Matrix.cons_val_zero, Matrix.cons_val_one, Matrix.head_cons,
      Matrix.cons_val_two, Matrix.tail_cons]
  rw [hdot]
  norm_num

theorem w_entry (i : Fin ([w_coil, w_coil, w_coil] : List Coil).length) :
    basis_entry 0 [w_coil, w_coil, w_coil] grad_in_components (1, 0) i =
      -Real.sqrt (3 / (4 * Real.pi)) := by
  rw [basis_entry, w_point_grads]
  fin_cases i <;> simp [int_len, concat_counts, w_coil]

theorem w_scaled (i : Fin ([w_coil, w_coil, w_coil] : List Coil).length) :
    side_scaled 0 [w_coil, w_coil, w_coil] 1 grad_in_components i
      ⟨1, by norm_num [n_basis_cols]⟩ = -Real.sqrt (3 / (4 * Real.pi)) := by
  have hraw : side_raw 0 [w_coil, w_coil, w_coil] 1 grad_in_components i
      ⟨1, by norm_num [n_basis_cols]⟩ = -Real.sqrt (3 / (4 * Real.pi)) := by
    rw [side_raw]
    simp [fill_side, deg_ord_pairs, List.range_succ, write_col, col_index, w_entry]
  rw [side_scaled]
  show coil_scale_vec [w_coil, w_coil, w_coil] i * _ = _
  rw [hraw, coil_scale_vec]
  have hc : ([w_coil, w_coil, w_coil].get i).coil_class = 0 := by
    fin_cases i <;> rfl
  rw [hc, if_neg (by norm_num)]
  ring

theorem w_scaled_col_ne_zero :
    (fun i => side_scaled 0 [w_coil, w_coil, w_coil] 1 grad_in_components i
      ⟨1, by norm_num [n_basis_cols]⟩) ≠ 0 := by
  intro h
  have h0 := congrFun h ⟨0, by norm_num⟩
  rw [w_scaled] at h0
  have hpos : 0 < Real.sqrt (3 / (4 * Real.pi)) :=
    Real.sqrt_pos.mpr (by positivity)
  simp only [Pi.zero_apply] at h0
  linarith

theorem sss_basis_unit_norm_columns_witness :
    (sss_basis 0 [w_coil, w_coil, w_coil] 1 0 =
      Except.ok (side_norm 0 [w_coil, w_coil, w_coil] 1 grad_in_components,
        side_norm 0 [w_coil, w_coil, w_coil] 0 grad_out_components)) ∧
    ((fun i => side_scaled 0 [w_coil, w_coil, w_coil] 1 grad_in_components i
      ⟨1, by norm_num [n_basis_cols]⟩) ≠ 0) ∧
    Real.sqrt (∑ i, (side_norm 0 [w_coil, w_coil, w_coil] 1 grad_in_components i
      ⟨1, by norm_num [n_basis_cols]⟩) ^ 2) = 1 := by
  have hok := sss_basis_ok 0 [w_coil, w_coil, w_coil] 1 0
    (by norm_num [get_num_moments])
  exact ⟨hok, w_scaled_col_ne_zero,
    (sss_basis_unit_norm_columns 0 [w_coil, w_coil, w_coil] 1 0 _ _ hok).1
      ⟨1, by norm_num [n_basis_cols]⟩ w_scaled_col_ne_zero⟩

end UnitNormWitness

section HarmonicHoist

open scoped Real

/-- The hoisted condition of `sss_basis` is exactly when `_sph_harmonic`'s
checks pass: within the azimuth/polar bounds and with `|order| ≤ degree`, the
checked `_sph_harmonic` returns its value without raising — so folding the
checks into one condition over all points and loop pairs preserves the
error behaviour of the assembly loop. -/
theorem sph_harmonic_ok_of_domain (degree : ℕ) (order : ℤ) (az pol : ℝ)
    (h1 : |order| ≤ (degree : ℤ)) (h2 : -(2 * Real.pi) ≤ az) (h3 : az ≤ 2 * Real.pi)
    (h4 : 0 ≤ pol) (h5 : pol ≤ Real.pi) :
    sph_harmonic degree order az pol =
      Except.ok (sph_harmonic_val degree order az pol) := by
  rw [sph_harmonic]
  rw [if_neg (not_lt.mpr h1)]
  rw [if_neg (not_or.mpr ⟨not_lt.mpr (by linarith), not_lt.mpr h3⟩)]
  rw [if_neg (not_or.mpr ⟨not_lt.mpr h4, not_lt.mpr h5⟩)]

end HarmonicHoist
